import Mathlib

/-!
Shallow embedding of `pangolin/scripts/all_snps.py` and verification of its
specification claims.

Sequences and snp strings are modelled as `List Char` (Python strings), machine
floats by `ℚ` (the script only adds, multiplies and divides by small integers),
and partial Python operations (`int(...)` on a non-numeric string, indexing an
empty list, `set.intersection` with no argument) by `Option` results.
-/

attribute [local semireducible] Rat.mul Rat.add Rat.inv Rat.sub Rat.ofScientific

/-- A Python string, modelled as its character list. -/
abbrev Str := List Char

/-- Python `s.split(";")` for a single-character separator; note `"".split(";")`
is `[""]`, not `[]`. -/
def splitSemi : Str → List Str
  | [] => [[]]
  | c :: cs =>
    match splitSemi cs with
    | [] => [[]]
    | w :: ws => if c = ';' then [] :: w :: ws else (c :: w) :: ws

/-- Python `";".join(ws)`. -/
def joinSemi : List Str → Str
  | [] => []
  | [w] => w
  | w :: v :: ws => w ++ ';' :: joinSemi (v :: ws)

/-- Keys of a Python dict in insertion order: first occurrences kept. -/
def dedupKeepFirst {α : Type} [DecidableEq α] : List α → List α
  | [] => []
  | a :: l => a :: (dedupKeepFirst l).filter (fun b => ¬ b = a)

/-- Numeric value of a decimal digit character. -/
def digitVal (c : Char) : Option Nat :=
  if '0' ≤ c ∧ c ≤ '9' then some (c.toNat - 48) else none

/-- Model of Python `int(...)` on the strings this program feeds it: it succeeds
exactly on nonempty all-digit strings (snp positions are rendered as plain
decimal digits) and raises — modelled as `none` — on the empty string and on
strings with non-digit characters. -/
def parseNatChars (l : Str) : Option Nat :=
  if l = [] then none
  else l.foldl (fun acc c =>
    match acc, digitVal c with
    | some n, some d => some (10 * n + d)
    | _, _ => none) (some 0)

/-- The sort key `int(x[:-2])` used by `snp_list_to_snp_string`: the position
digits of a snp string with the two base characters stripped. -/
def parsePos (s : Str) : Option Nat := parseNatChars s.dropLast.dropLast

/-- Python `int()` applied to a float truncates toward zero. -/
def pyInt (q : ℚ) : ℤ := if 0 ≤ q then ⌊q⌋ else ⌈q⌉

/-- Stable insertion of `a` into `l`: `a` goes after every element that compares
less-or-equal to it, exactly where Python's stable `sorted` leaves a later
element among earlier equal ones. -/
def insertLe {α : Type} (le : α → α → Bool) (a : α) : List α → List α
  | [] => [a]
  | b :: l => if le b a then b :: insertLe le a l else a :: b :: l

/-- Stable sort by a boolean total preorder — the model of Python's stable
`sorted(xs, key=...)` (insertion sort and a stable merge sort agree on every
input for a total preorder). -/
def sortByKey {α : Type} (le : α → α → Bool) (l : List α) : List α :=
  l.foldl (fun acc a => insertLe le a acc) []

/-- `snp_list_to_snp_string`: join the snp list with `";"` after stable-sorting
it by genome position `int(x[:-2])`; Python raises — modelled as `none` — as
soon as the key fails on any element (e.g. on the empty string). -/
def snp_list_to_snp_string (l : List Str) : Option Str :=
  if l.all (fun s => (parsePos s).isSome) then
    some (joinSemi (sortByKey (fun a b => (parsePos a).getD 0 ≤ (parsePos b).getD 0) l))
  else none

/-- A snp event as assembled by `find_snps` at line 88: the position in ungapped
reference coordinates plus the uppercased reference and member bases.  The source
renders the event as the string made of the decimal digits of `pos` followed by
the two base characters; its position is recovered downstream by `int(x[:-2])`. -/
structure SnpEvent where
  pos : Nat
  refBase : Char
  obsBase : Char
deriving DecidableEq, Repr

/-- Reference-coordinate counter update (lines 80-81): increments only on
non-gap reference columns. -/
def nextIndex (r : Char) (index : Nat) : Nat :=
  if ¬ r = '-' then index + 1 else index

/-- Column walk of `find_snps` (lines 78-90): the counter increments on non-gap
reference columns; a column whose two characters differ emits an event unless the
member base, lowercased, is outside a, g, t, c, gap. -/
def findSnpsAux : List Char → List Char → Nat → List SnpEvent
  | [], _, _ => []
  | _ :: _, [], _ => []
  | r :: rs, m :: ms, index =>
    if ¬ r = m ∧ m.toLower ∈ ['a', 'g', 't', 'c', '-'] then
      ⟨nextIndex r index, r.toUpper, m.toUpper⟩ :: findSnpsAux rs ms (nextIndex r index)
    else
      findSnpsAux rs ms (nextIndex r index)

/-- `find_snps(ref, member)`. -/
def find_snps (ref member : List Char) : List SnpEvent := findSnpsAux ref member 0

/-- `get_N_content`: percentage of residues whose uppercased form is `N`; the
source performs exact float division and does not round. -/
def get_N_content (seq : List Char) : ℚ :=
  (((seq.filter (fun c => c.toUpper = 'N')).length : ℚ) * 100) / seq.length

/-- A sequence record after annotation (`add_N_annotation`, `add_snps_annotation`):
its identifier, its snp list relative to the reference, and its N-content. -/
structure Record where
  id : Str
  snps : List Str
  pcentN : ℚ
deriving DecidableEq, Repr

/-- The `snp_string` annotation of a record.  The real program raises during
annotation when `snp_list_to_snp_string` fails, so the `[]` default is never
reached on inputs that reach per-lineage processing. -/
def sigD (r : Record) : Str := (snp_list_to_snp_string r.snps).getD []

/-- `snp_counter[s]` (built at lines 279-280): one copy of the record id per
occurrence of `s` in that record's snp list. -/
def snpCounterGet (members : List Record) (s : Str) : List Str :=
  members.flatMap (fun r => (r.snps.filter (fun t => t = s)).map (fun _ => r.id))

/-- The keys of `snp_counter` in insertion order. -/
def snpCounterKeys (members : List Record) : List Str :=
  dedupKeepFirst (members.flatMap (fun r => r.snps))

/-- `get_singleton_snps`: the mask rows (lineage, snp, carrying id) for snps whose
occurrence list has length exactly one. -/
def get_singleton_snps (lineage : Str) (members : List Record) : List (Str × Str × Str) :=
  (snpCounterKeys members).filterMap (fun s =>
    if (snpCounterGet members s).length = 1 then
      some (lineage, s, (snpCounterGet members s).headD [])
    else none)

/-- `get_inclusion_pcent`: percentage of lineage members carrying the snp. -/
def get_inclusion_pcent (members : List Record) (s : Str) : ℚ :=
  (100 * ((snpCounterGet members s).length : ℚ)) / members.length

/-- `get_represented_and_defining_snps`: among non-singleton snps (in counter key
order), those whose inclusion percentage strictly exceeds the defining cutoff,
and those strictly exceeding the representative cutoff. -/
def get_represented_and_defining_snps (singletons : List (Str × Str × Str))
    (members : List Record) (defining_cut_off represent_cut_off : ℚ) :
    List Str × List Str :=
  let keys := snpCounterKeys members
  (keys.filter (fun s => ¬ singletons.any (fun t => s = t.2.1) ∧
      get_inclusion_pcent members s > defining_cut_off),
   keys.filter (fun s => ¬ singletons.any (fun t => s = t.2.1) ∧
      get_inclusion_pcent members s > represent_cut_off))

/-- Per-lineage classification exactly as wired in `get_all_snps` step 5:
singletons are computed first and fed to the cutoff classifier. -/
def classify (lineage : Str) (members : List Record)
    (defining_cut_off represent_cut_off : ℚ) : List Str × List Str :=
  get_represented_and_defining_snps (get_singleton_snps lineage members) members
    defining_cut_off represent_cut_off

/-- `lineage_snps` (lines 270-282): a `defaultdict(list)` keyed by `snp_string`;
keys in first-occurrence order, each value list holding the `(id, pcent_N)` pairs
of the members with that signature, in member order. -/
def buildLineageSnps (members : List Record) : List (Str × List (Str × ℚ)) :=
  (dedupKeepFirst (members.map sigD)).map (fun k =>
    (k, (members.filter (fun r => sigD r = k)).map (fun r => (r.id, r.pcentN))))

/-- State of the `get_representative_taxa` loops: the `represented` snp list and
the `taxa` record list. -/
abbrev RState := List Str × List Record

/-- `records_sorted_by_N[0][0]` (lines 189-190): the id of the first group member
after stable-sorting the group by the truncated key `int(x[1])`; the default is
never reached because every group holds at least one member. -/
def lowestNOf (grp : List (Str × ℚ)) : Str :=
  ((sortByKey (fun a b => pyInt a.2 ≤ pyInt b.2) grp).headD ([], 0)).1

/-- One iteration of the innermost loop (lines 203-206): append the snp being
processed to `represented` again, and add the record to `taxa` if its id is not
yet present. -/
def innerBody (snp : Str) (r : Record) (st : RState) : RState :=
  if r.id ∈ st.2.map Record.id then (st.1 ++ [snp], st.2)
  else (st.1 ++ [snp], st.2 ++ [r])

/-- Innermost loop of `get_representative_taxa` (lines 202-206): one `innerBody`
iteration per snp of the chosen record (the loop body never reads the loop
variable `lowest_N_snp`). -/
def innerTaxaStep (snp : Str) (r : Record) (st : RState) : RState :=
  r.snps.foldl (fun st _ => innerBody snp r st) st

/-- Scan of `lineages_dict[lineage]` for the record(s) whose id is `lowN`
(lines 199-206). -/
def memberScan (members : List Record) (snp : Str) (lowN : Str) (st : RState) : RState :=
  members.foldl (fun st r => if r.id = lowN then innerTaxaStep snp r st else st) st

/-- Body of the `for snp in snps` loop (lines 194-206): a flagged, not yet
represented snp is marked represented and triggers the member scan. -/
def snpStep (members : List Record) (flagged : List Str) (lowN : Str)
    (st : RState) (snp : Str) : RState :=
  if snp ∈ flagged ∧ ¬ snp ∈ st.1 then
    memberScan members snp lowN (st.1 ++ [snp], st.2)
  else st

/-- Body of the `for snp_set in lineage_snps` loop (lines 187-206). -/
def groupStep (members : List Record) (flagged : List Str)
    (st : RState) (g : Str × List (Str × ℚ)) : RState :=
  (splitSemi g.1).foldl (snpStep members flagged (lowestNOf g.2)) st

/-- `get_representative_taxa(lineage, lineage_snps, lineages_dict, flagged)`,
with `lineage_snps` built from the member list as in `get_all_snps`. -/
def get_representative_taxa (members : List Record) (flagged : List Str) : List Record :=
  ((buildLineageSnps members).foldl (groupStep members flagged) ([], [])).2

/-- One iteration of the padding loop (lines 215-221): append the member if the
list is still short of three and its id is not yet present. -/
def padStep (t : List Record) (r : Record) : List Record :=
  if t.length < 3 ∧ ¬ r.id ∈ t.map Record.id then t ++ [r] else t

/-- `pad_taxa_to_5` (which, despite its name, pads to three): append members
whose id is not yet present while the list is shorter than three. -/
def pad_taxa_to_5 (taxa : List Record) (members : List Record) : List Record :=
  if taxa.length < 3 then members.foldl padStep taxa else taxa

/-- `set(x.split(";"))` for one signature string: the split fragments with
duplicates removed.  Python's set iteration order is unspecified; the
deterministic first-occurrence order stands in for it, and every property proved
about the result goes through membership only. -/
def sigEventList (k : Str) : List Str := dedupKeepFirst (splitSemi k)

/-- `list(set.intersection(*[set(x.split(";")) for x in lineage_snps]))` over the
keys of `lineage_snps`; Python raises on an empty argument list, which cannot
happen because a lineage in the dict always has at least one member. -/
def interSig : List Str → List Str
  | [] => []
  | k :: t => t.foldl (fun a k2 => a.filter (fun x => x ∈ splitSemi k2)) (sigEventList k)

/-- The `defining_snps` list chosen at lines 302-306: the signature intersection
when it is non-empty, otherwise the cutoff-based defining list. -/
def lineage_defining_choice (lineage : Str) (members : List Record)
    (defining_cut_off represent_cut_off : ℚ) : List Str :=
  let inter := interSig (dedupKeepFirst (members.map sigD))
  if inter = [] then (classify lineage members defining_cut_off represent_cut_off).1
  else inter

/-- The per-lineage defining-snp string written at lines 308-310; `none` models
the places where the real program raises: a lineage with no members (empty
intersection argument list at line 302), a member whose `snp_string` annotation
already raised at line 112, or a chosen defining list on which the sort key of
`snp_list_to_snp_string` raises at line 230. -/
def lineage_defining_string (lineage : Str) (members : List Record)
    (defining_cut_off represent_cut_off : ℚ) : Option Str :=
  if members = [] then none
  else if ¬ members.all (fun m => (snp_list_to_snp_string m.snps).isSome) then none
  else snp_list_to_snp_string
    (lineage_defining_choice lineage members defining_cut_off represent_cut_off)

/-- Modelled from the spec: the intersection of the per-member snp-event sets
("SNP events that appear in literally every member's own SNP list, found by
intersecting all per-member SNP-event sets").  Used as the comparison point for
the source's signature-string intersection. -/
def specMemberIntersection : List Record → Finset Str
  | [] => ∅
  | m :: t => t.foldl (fun a r => a ∩ r.snps.toFinset) m.snps.toFinset

/-- Well-formedness of a snp string as `find_snps` produces them on sequences
over the residue alphabet: nonempty, no embedded separator character, and a
position prefix on which the sort key succeeds. -/
def SnpWF (s : Str) : Prop := ¬ s = [] ∧ ¬ ';' ∈ s ∧ (parsePos s).isSome

instance decSnpWF (s : Str) : Decidable (SnpWF s) := by
  unfold SnpWF
  infer_instance

/-! ## Basic lemmas about the string-level helpers -/

theorem splitSemi_ne_nil (l : Str) : splitSemi l ≠ [] := by
  cases l with
  | nil => simp [splitSemi]
  | cons c cs =>
    cases h : splitSemi cs with
    | nil => simp [splitSemi, h]
    | cons w ws => simp only [splitSemi, h]; split <;> simp

theorem splitSemi_cons (c : Char) (cs : Str) {w : Str} {ws : List Str}
    (h : splitSemi cs = w :: ws) :
    splitSemi (c :: cs) = if c = ';' then [] :: w :: ws else (c :: w) :: ws := by
  simp only [splitSemi, h]

theorem splitSemi_append {l : Str} {hd : Str} {tl : List Str}
    (h : splitSemi l = hd :: tl) :
    ∀ w : Str, ';' ∉ w → splitSemi (w ++ l) = (w ++ hd) :: tl := by
  intro w
  induction w with
  | nil => intro _; simpa using h
  | cons c cs ih =>
    intro hw
    have hw' : ¬ (';' = c ∨ ';' ∈ cs) := by simpa using hw
    have hc : ¬ c = ';' := fun hcc => hw' (Or.inl hcc.symm)
    have hcs : ';' ∉ cs := fun hmem => hw' (Or.inr hmem)
    have h2 := ih hcs
    rw [List.cons_append, splitSemi_cons c (cs ++ l) h2, if_neg hc]
    simp

theorem splitSemi_joinSemi : ∀ ws : List Str, ws ≠ [] → (∀ w ∈ ws, ';' ∉ w) →
    splitSemi (joinSemi ws) = ws
  | [], h, _ => absurd rfl h
  | [w], _, hw => by
    have : splitSemi ([] : Str) = [] :: [] := by simp [splitSemi]
    have h2 := splitSemi_append this w (hw w (by simp))
    simpa [joinSemi] using h2
  | w :: v :: ws, _, hw => by
    have ih := splitSemi_joinSemi (v :: ws) (by simp)
      (fun x hx => hw x (List.mem_cons_of_mem w hx))
    have hsemi : splitSemi (';' :: joinSemi (v :: ws)) = [] :: v :: ws := by
      cases hsp : splitSemi (joinSemi (v :: ws)) with
      | nil => exact absurd hsp (splitSemi_ne_nil _)
      | cons a b =>
        rw [splitSemi_cons ';' _ hsp, if_pos rfl, ← hsp, ih]
    have h2 := splitSemi_append hsemi w (hw w (by simp))
    simpa [joinSemi] using h2

theorem joinSemi_cons_eq_nil {w : Str} {ws : List Str} :
    joinSemi (w :: ws) = [] ↔ w = [] ∧ ws = [] := by
  cases ws with
  | nil => simp [joinSemi]
  | cons v t => simp [joinSemi]

theorem mem_dedupKeepFirst {α : Type} [DecidableEq α] {a : α} :
    ∀ {l : List α}, a ∈ dedupKeepFirst l ↔ a ∈ l
  | [] => by simp [dedupKeepFirst]
  | b :: t => by
    simp only [dedupKeepFirst, List.mem_cons, List.mem_filter,
      mem_dedupKeepFirst (l := t), decide_eq_true_eq]
    by_cases hab : a = b <;> simp [hab]

theorem nodup_dedupKeepFirst {α : Type} [DecidableEq α] :
    ∀ l : List α, (dedupKeepFirst l).Nodup
  | [] => by simp [dedupKeepFirst]
  | b :: t => by
    simp only [dedupKeepFirst, List.nodup_cons]
    refine ⟨fun hmem => ?_, (nodup_dedupKeepFirst t).filter _⟩
    have := (List.mem_filter.mp hmem).2
    simp at this

theorem dedupKeepFirst_eq_single {α : Type} [DecidableEq α] {x : α} :
    ∀ {l : List α}, l ≠ [] → (∀ a ∈ l, a = x) → dedupKeepFirst l = [x]
  | [], h, _ => absurd rfl h
  | b :: t, _, hall => by
    have hb : b = x := hall b (by simp)
    have hfil : (dedupKeepFirst t).filter (fun y => ¬ y = b) = [] := by
      rw [List.filter_eq_nil_iff]
      intro a ha
      have hax : a = x := hall a (List.mem_cons_of_mem _ (mem_dedupKeepFirst.mp ha))
      simp [hax, hb]
    show b :: (dedupKeepFirst t).filter (fun y => ¬ y = b) = [x]
    rw [hfil, hb]

theorem parsePos_nil : parsePos ([] : Str) = none := rfl

theorem pyInt_mono {a b : ℚ} (h : a ≤ b) : pyInt a ≤ pyInt b := by
  unfold pyInt
  split_ifs with ha hb hb
  · exact Int.floor_le_floor h
  · exact absurd (le_trans ha h) hb
  · calc ⌈a⌉ ≤ ⌈(0 : ℚ)⌉ := Int.ceil_le_ceil (le_of_not_le ha)
      _ = 0 := Int.ceil_zero
      _ ≤ ⌊b⌋ := Int.floor_nonneg.mpr hb
  · exact Int.ceil_le_ceil h

/-! ## Lemmas about the stable sort -/

theorem insertLe_perm {α : Type} (le : α → α → Bool) (a : α) :
    ∀ l : List α, (insertLe le a l).Perm (a :: l)
  | [] => List.Perm.refl _
  | b :: l => by
    simp only [insertLe]
    split
    · exact ((insertLe_perm le a l).cons b).trans (List.Perm.swap a b l)
    · exact List.Perm.refl _

theorem foldl_insertLe_perm {α : Type} (le : α → α → Bool) :
    ∀ (l acc : List α), (l.foldl (fun acc a => insertLe le a acc) acc).Perm (acc ++ l)
  | [], acc => by simp
  | a :: t, acc => by
    have h1 := foldl_insertLe_perm le t (insertLe le a acc)
    have h2 : (insertLe le a acc ++ t).Perm (acc ++ a :: t) := by
      have h3 := (insertLe_perm le a acc).append_right t
      exact h3.trans List.perm_middle.symm
    simpa using h1.trans h2

theorem sortByKey_perm {α : Type} (le : α → α → Bool) (l : List α) :
    (sortByKey le l).Perm l := by
  have := foldl_insertLe_perm le l []
  simpa [sortByKey] using this

theorem mem_sortByKey {α : Type} {le : α → α → Bool} {l : List α} {x : α} :
    x ∈ sortByKey le l ↔ x ∈ l :=
  (sortByKey_perm le l).mem_iff

theorem length_sortByKey {α : Type} (le : α → α → Bool) (l : List α) :
    (sortByKey le l).length = l.length :=
  (sortByKey_perm le l).length_eq

theorem insertLe_of_all_le {α : Type} (le : α → α → Bool) (a : α) :
    ∀ {l : List α}, (∀ b ∈ l, le b a) → insertLe le a l = l ++ [a]
  | [], _ => rfl
  | b :: l, h => by
    simp only [insertLe, if_pos (h b (by simp))]
    rw [insertLe_of_all_le le a (fun c hc => h c (List.mem_cons_of_mem _ hc))]
    simp

theorem foldl_insertLe_of_sorted {α : Type} (le : α → α → Bool) :
    ∀ (l acc : List α), (∀ b ∈ acc, ∀ a ∈ l, le b a) →
      l.Pairwise (fun x y => le x y) →
      l.foldl (fun acc a => insertLe le a acc) acc = acc ++ l
  | [], acc, _, _ => by simp
  | a :: t, acc, hacc, hl => by
    have hins : insertLe le a acc = acc ++ [a] :=
      insertLe_of_all_le le a (fun b hb => hacc b hb a (by simp))
    have hrest : ∀ b ∈ acc ++ [a], ∀ x ∈ t, le b x := by
      intro b hb x hx
      rcases List.mem_append.mp hb with h | h
      · exact hacc b h x (List.mem_cons_of_mem _ hx)
      · have hba : b = a := by simpa using h
        subst hba
        exact (List.pairwise_cons.mp hl).1 x hx
    have := foldl_insertLe_of_sorted le t (acc ++ [a]) hrest (List.pairwise_cons.mp hl).2
    simp only [List.foldl_cons, hins, this, List.append_assoc, List.singleton_append]

theorem sortByKey_of_sorted {α : Type} {le : α → α → Bool} {l : List α}
    (h : l.Pairwise (fun x y => le x y)) : sortByKey le l = l := by
  have := foldl_insertLe_of_sorted le l [] (by simp) h
  simpa [sortByKey] using this

/-! ## Character-level facts -/

theorem char_toNat_ofNat {n : Nat} (h : n < 55296) : (Char.ofNat n).toNat = n := by
  have hv : n.isValidChar := Or.inl h
  rw [Char.ofNat, dif_pos hv]
  rfl

theorem toUpper_eq_N_iff (c : Char) : c.toUpper = 'N' ↔ (c = 'N' ∨ c = 'n') := by
  constructor
  · intro h
    rw [Char.toUpper] at h
    split_ifs at h with hrange
    · right
      have h1 : (Char.ofNat (c.toNat - 32)).toNat = 78 := by rw [h]; rfl
      rw [char_toNat_ofNat (by omega)] at h1
      have h2 : c.toNat = 110 := by omega
      have h3 : Char.ofNat c.toNat = Char.ofNat 110 := by rw [h2]
      rw [Char.ofNat_toNat] at h3
      rw [h3]
    · exact Or.inl h
  · rintro (rfl | rfl) <;> rfl

/-! ## C8: the N-content annotator -/

/-- Claim C8 (amended): for every nonempty sequence, `get_N_content` returns the
exact percentage of residues equal to N, matched case-insensitively, over the
total sequence length — it does not round the result. -/
theorem claim_C8 (seq : List Char) (h : seq ≠ []) :
    get_N_content seq =
      (((seq.filter (fun c => c = 'N' ∨ c = 'n')).length : ℚ) * 100) / seq.length := by
  unfold get_N_content
  have hfil : seq.filter (fun c => c.toUpper = 'N') =
      seq.filter (fun c => c = 'N' ∨ c = 'n') := by
    apply List.filter_congr
    intro c _
    exact decide_eq_decide.mpr (toUpper_eq_N_iff c)
  rw [hfil]

/-- Witness for C8 at a concrete sequence: one lowercase n out of four residues
is exactly 25 percent. -/
theorem claim_C8_witness :
    get_N_content "AnGT".toList =
      ((("AnGT".toList.filter (fun c => c = 'N' ∨ c = 'n')).length : ℚ) * 100) /
        "AnGT".toList.length :=
  claim_C8 "AnGT".toList (by decide)

/-- Counterexample to C8 as stated: on the sequence ANN the returned value is
200/3, which is not a number with two decimal places at all (no integer z has
z/100 = 200/3), so it cannot be the two-decimal rounding the claim describes. -/
theorem claim_C8_counterexample :
    get_N_content "ANN".toList = 200 / 3 ∧
      ¬ ∃ z : ℤ, get_N_content "ANN".toList = (z : ℚ) / 100 := by
  constructor
  · decide
  · rintro ⟨z, hz⟩
    have h1 : get_N_content "ANN".toList = 200 / 3 := by decide
    rw [h1] at hz
    have h2 : (20000 : ℚ) = 3 * (z : ℚ) := by field_simp at hz; linarith
    have h3 : (20000 : ℤ) = 3 * z := by exact_mod_cast h2
    omega

/-! ## C4: positions emitted by the snp extractor -/

theorem findSnpsAux_pos_bound : ∀ (rs ms : List Char) (idx : Nat), '-' ∉ rs →
    (∀ e ∈ findSnpsAux rs ms idx, idx < e.pos) ∧
      ((findSnpsAux rs ms idx).map SnpEvent.pos).Pairwise (fun a b => a < b)
  | [], ms, idx, _ => by simp [findSnpsAux]
  | r :: rs, [], idx, _ => by simp [findSnpsAux]
  | r :: rs, m :: ms, idx, h => by
    have hr : ¬ r = '-' := fun hh => h (by simp [hh])
    have hnext : nextIndex r idx = idx + 1 := if_pos hr
    have hrs : '-' ∉ rs := fun hh => h (List.mem_cons_of_mem _ hh)
    have ih := findSnpsAux_pos_bound rs ms (nextIndex r idx) hrs
    simp only [findSnpsAux]
    split
    · refine ⟨?_, ?_⟩
      · intro e he
        rcases List.mem_cons.mp he with rfl | hmem
        · simp [hnext]
        · have h2 := ih.1 e hmem
          omega
      · rw [List.map_cons]
        refine List.Pairwise.cons ?_ ih.2
        intro b hb
        obtain ⟨e, he, rfl⟩ := List.mem_map.mp hb
        exact ih.1 e he
    · refine ⟨?_, ih.2⟩
      intro e he
      have h2 := ih.1 e he
      omega

/-- Claim C4 (amended): for every reference/member pair of equal length, provided
the reference contains no gap character, the snp list returned by `find_snps`
contains no two events with the same position.  (At a reference-gap column the
coordinate counter does not advance, so a gap column can emit an event sharing its
position with the preceding column's event — see the counterexample.) -/
theorem claim_C4 (ref member : List Char) (hlen : ref.length = member.length)
    (hgap : '-' ∉ ref) : ((find_snps ref member).map SnpEvent.pos).Nodup := by
  have h := (findSnpsAux_pos_bound ref member 0 hgap).2
  exact h.imp (fun hab => Nat.ne_of_lt hab)

/-- Witness for C4 at a concrete gap-free alignment pair. -/
theorem claim_C4_witness :
    ((find_snps "ACG".toList "ATG".toList).map SnpEvent.pos).Nodup :=
  claim_C4 "ACG".toList "ATG".toList (by decide) (by decide)

/-- Counterexample to C4 as stated: for the equal-length pair AC- versus ATG the
extractor emits the events 2CT and 2-G, two events sharing position 2. -/
theorem claim_C4_counterexample :
    "AC-".toList.length = "ATG".toList.length ∧
      find_snps "AC-".toList "ATG".toList =
        [⟨2, 'C', 'T'⟩, ⟨2, '-', 'G'⟩] ∧
      ¬ ((find_snps "AC-".toList "ATG".toList).map SnpEvent.pos).Nodup := by
  refine ⟨by decide, by decide, by decide⟩

/-! ## C7 and C9: the cutoff classifier -/

/-- Claim C7: for a fixed lineage the representable (flagged) set is antitone in
the representative cutoff: everything flagged under the larger cutoff is flagged
under the smaller one. -/
theorem claim_C7 (lineage : Str) (members : List Record) (dC ca cb : ℚ)
    (h : ca < cb) :
    ∀ s ∈ (classify lineage members dC cb).2, s ∈ (classify lineage members dC ca).2 := by
  intro s hs
  unfold classify get_represented_and_defining_snps at hs ⊢
  simp only [List.mem_filter, decide_eq_true_eq] at hs ⊢
  exact ⟨hs.1, hs.2.1, lt_trans h hs.2.2⟩

/-- Witness for C7 at a concrete lineage: a snp carried by both members is
flagged at cutoff 50, hence also at cutoff 10. -/
theorem claim_C7_witness :
    "5AT".toList ∈ (classify "X".toList
      [⟨"M1".toList, ["5AT".toList], 0⟩, ⟨"M2".toList, ["5AT".toList], 1⟩] 90 10).2 :=
  claim_C7 "X".toList
    [⟨"M1".toList, ["5AT".toList], 0⟩, ⟨"M2".toList, ["5AT".toList], 1⟩] 90 10 50
    (by decide) "5AT".toList (by decide)

/-- Claim C9 (amended): the program performs no validation of the cutoff
configuration.  For every cutoff pair — including pairs outside [0,100] or with
the representative cutoff exceeding the defining cutoff — classification
proceeds, and membership in the two output sets is exactly the strict-threshold
comparison applied to the cutoffs as given. -/
theorem claim_C9 (lineage : Str) (members : List Record) (dC rC : ℚ) (s : Str) :
    (s ∈ (classify lineage members dC rC).1 ↔
      (s ∈ snpCounterKeys members ∧
        ¬ (∃ t ∈ get_singleton_snps lineage members, s = t.2.1) ∧
        get_inclusion_pcent members s > dC)) ∧
    (s ∈ (classify lineage members dC rC).2 ↔
      (s ∈ snpCounterKeys members ∧
        ¬ (∃ t ∈ get_singleton_snps lineage members, s = t.2.1) ∧
        get_inclusion_pcent members s > rC)) := by
  have hmain : ∀ c : ℚ, (s ∈ (snpCounterKeys members).filter
      (fun u => ¬ (get_singleton_snps lineage members).any (fun t => u = t.2.1) ∧
        get_inclusion_pcent members u > c) ↔
      (s ∈ snpCounterKeys members ∧
        ¬ (∃ t ∈ get_singleton_snps lineage members, s = t.2.1) ∧
        get_inclusion_pcent members s > c)) := by
    intro c
    rw [List.mem_filter]
    simp only [decide_eq_true_eq, List.any_eq_true]
  exact ⟨hmain dC, hmain rC⟩

/-- Counterexample to C9 as stated: with defining cutoff 50 and representative
cutoff 200 — violating both representative ≤ defining and representative ≤ 100 —
the run does not abort: classification runs to completion and the per-lineage
defining-snp row is produced. -/
theorem claim_C9_counterexample :
    ((200 : ℚ) > 100 ∧ (200 : ℚ) > 50) ∧
      classify "X".toList
        [⟨"M1".toList, ["5AT".toList], 0⟩, ⟨"M2".toList, ["5AT".toList], 1⟩] 50 200 =
        (["5AT".toList], []) ∧
      lineage_defining_string "X".toList
        [⟨"M1".toList, ["5AT".toList], 0⟩, ⟨"M2".toList, ["5AT".toList], 1⟩] 50 200 =
        some "5AT".toList := by
  refine ⟨by decide, by decide, by decide⟩

/-! ## C3: singleton detection -/

theorem mem_snpCounterGet {members : List Record} {s x : Str} :
    x ∈ snpCounterGet members s ↔ ∃ r ∈ members, x = r.id ∧ s ∈ r.snps := by
  unfold snpCounterGet
  simp only [List.mem_flatMap, List.mem_map, List.mem_filter, decide_eq_true_eq]
  constructor
  · rintro ⟨r, hr, y, ⟨hy, hys⟩, hid⟩
    exact ⟨r, hr, hid.symm, hys ▸ hy⟩
  · rintro ⟨r, hr, rfl, hs⟩
    exact ⟨r, hr, s, ⟨hs, rfl⟩, rfl⟩

theorem length_snpCounterGet (members : List Record) (s : Str) :
    (snpCounterGet members s).length =
      (members.map (fun m => (m.snps.filter (fun x => x = s)).length)).sum := by
  unfold snpCounterGet
  induction members with
  | nil => simp
  | cons m t ih =>
    rw [List.flatMap_cons, List.length_append, List.length_map, ih,
      List.map_cons, List.sum_cons]

theorem mem_get_singleton_snps {lineage : Str} {members : List Record}
    {t : Str × Str × Str} :
    t ∈ get_singleton_snps lineage members ↔
      ∃ s ∈ snpCounterKeys members, (snpCounterGet members s).length = 1 ∧
        t = (lineage, s, (snpCounterGet members s).headD []) := by
  unfold get_singleton_snps
  simp only [List.mem_filterMap]
  constructor
  · rintro ⟨s, hs, hsome⟩
    by_cases hlen : (snpCounterGet members s).length = 1
    · rw [if_pos hlen] at hsome
      exact ⟨s, hs, hlen, (Option.some_inj.mp hsome).symm⟩
    · rw [if_neg hlen] at hsome
      exact absurd hsome (by simp)
  · rintro ⟨s, hs, hlen, rfl⟩
    exact ⟨s, hs, by rw [if_pos hlen]⟩

/-- Claim C3 (amended): a snp event is classified singleton — and emitted as a
mask row carrying a member identifier that does carry the event — exactly when
its occurrences summed over all members' snp lists, counted with multiplicity
inside each list, total exactly one.  In particular an event appearing in the
lists of two or more members is never singleton; but an event whose single
carrier lists it twice (possible at reference-gap columns) is not singleton
either, which is where the claim as stated fails. -/
theorem claim_C3 (lineage : Str) (members : List Record) (s : Str) :
    ((∃ t ∈ get_singleton_snps lineage members, t.2.1 = s) ↔
      (members.map (fun m => (m.snps.filter (fun x => x = s)).length)).sum = 1) ∧
    ∀ t ∈ get_singleton_snps lineage members,
      ∃ m ∈ members, t.2.2 = m.id ∧ t.2.1 ∈ m.snps := by
  constructor
  · constructor
    · rintro ⟨t, ht, rfl⟩
      obtain ⟨s', hs', hlen, rfl⟩ := mem_get_singleton_snps.mp ht
      rw [← length_snpCounterGet]
      exact hlen
    · intro hsum
      have hlen : (snpCounterGet members s).length = 1 := by
        rw [length_snpCounterGet]; exact hsum
      have hne : snpCounterGet members s ≠ [] := by
        intro hnil; rw [hnil] at hlen; simp at hlen
      obtain ⟨x, hx⟩ := List.exists_mem_of_ne_nil _ hne
      obtain ⟨r, hr, _, hsr⟩ := mem_snpCounterGet.mp hx
      have hkey : s ∈ snpCounterKeys members := by
        unfold snpCounterKeys
        rw [mem_dedupKeepFirst]
        exact List.mem_flatMap.mpr ⟨r, hr, hsr⟩
      exact ⟨(lineage, s, (snpCounterGet members s).headD []),
        mem_get_singleton_snps.mpr ⟨s, hkey, hlen, rfl⟩, rfl⟩
  · intro t ht
    obtain ⟨s', hs', hlen, rfl⟩ := mem_get_singleton_snps.mp ht
    obtain ⟨x, hx⟩ := List.length_eq_one.mp hlen
    have hxs : x ∈ snpCounterGet members s' := by rw [hx]; simp
    obtain ⟨m, hm, hxid, hsm⟩ := mem_snpCounterGet.mp hxs
    refine ⟨m, hm, ?_, hsm⟩
    show (snpCounterGet members s').headD [] = m.id
    rw [hx]
    simpa using hxid

/-- Counterexample to C3 as stated: against the all-gap reference the member TT
yields the snp list [1-T, 1-T]; the event 1-T appears in the snp list of exactly
one lineage member, yet the occurrence list has length two, so no singleton is
emitted and the event is not masked. -/
theorem claim_C3_counterexample :
    find_snps "A--".toList "ATT".toList = [⟨1, '-', 'T'⟩, ⟨1, '-', 'T'⟩] ∧
      (([⟨"M1".toList, ["1-T".toList, "1-T".toList], 0⟩] : List Record).filter
        (fun m => "1-T".toList ∈ m.snps)).length = 1 ∧
      get_singleton_snps "X".toList
        [⟨"M1".toList, ["1-T".toList, "1-T".toList], 0⟩] = [] := by
  refine ⟨by decide, by decide, by decide⟩

/-! ## Signature-string lemmas -/

theorem snpString_of_wf {l : List Str} (h : ∀ s ∈ l, SnpWF s) :
    snp_list_to_snp_string l =
      some (joinSemi (sortByKey (fun a b => (parsePos a).getD 0 ≤ (parsePos b).getD 0) l)) := by
  unfold snp_list_to_snp_string
  rw [if_pos]
  rw [List.all_eq_true]
  intro s hs
  exact (h s hs).2.2

theorem sigD_of_wf {r : Record} (h : ∀ s ∈ r.snps, SnpWF s) :
    sigD r = joinSemi
      (sortByKey (fun a b => (parsePos a).getD 0 ≤ (parsePos b).getD 0) r.snps) := by
  unfold sigD
  rw [snpString_of_wf h]
  rfl

theorem splitSemi_sigD {r : Record} (h : ∀ s ∈ r.snps, SnpWF s) (hne : r.snps ≠ []) :
    splitSemi (sigD r) =
      sortByKey (fun a b => (parsePos a).getD 0 ≤ (parsePos b).getD 0) r.snps := by
  rw [sigD_of_wf h]
  apply splitSemi_joinSemi
  · intro hnil
    have hlen := length_sortByKey
      (fun a b => (parsePos a).getD 0 ≤ (parsePos b).getD 0) r.snps
    rw [hnil] at hlen
    exact hne (List.length_eq_zero.mp hlen.symm)
  · intro w hw
    have hmem : w ∈ r.snps := mem_sortByKey.mp hw
    exact (h w hmem).2.1

theorem mem_splitSemi_sigD {r : Record} (h : ∀ s ∈ r.snps, SnpWF s)
    (hne : r.snps ≠ []) {s : Str} :
    s ∈ splitSemi (sigD r) ↔ s ∈ r.snps := by
  rw [splitSemi_sigD h hne]
  exact mem_sortByKey

theorem sigD_nil_snps {r : Record} (h : r.snps = []) : sigD r = [] := by
  unfold sigD snp_list_to_snp_string
  rw [h]
  rfl

theorem sigD_eq_nil_iff {r : Record} (h : ∀ s ∈ r.snps, SnpWF s) :
    sigD r = [] ↔ r.snps = [] := by
  constructor
  · intro hnil
    by_contra hne
    rw [sigD_of_wf h] at hnil
    cases hsort : sortByKey (fun a b => (parsePos a).getD 0 ≤ (parsePos b).getD 0) r.snps with
    | nil =>
      have hlen := length_sortByKey
        (fun a b => (parsePos a).getD 0 ≤ (parsePos b).getD 0) r.snps
      rw [hsort] at hlen
      exact hne (List.length_eq_zero.mp hlen.symm)
    | cons w ws =>
      rw [hsort] at hnil
      obtain ⟨hw, -⟩ := joinSemi_cons_eq_nil.mp hnil
      have hwm : w ∈ r.snps := mem_sortByKey.mp
        (by rw [hsort]; exact List.mem_cons_self w ws)
      exact (h w hwm).1 hw
  · exact sigD_nil_snps

/-! ## C10 and C2: the per-lineage defining-snp output -/

theorem dedup_sigD_all_nil {members : List Record} (hne : members ≠ [])
    (hall : ∀ m ∈ members, m.snps = []) :
    dedupKeepFirst (members.map sigD) = [[]] := by
  apply dedupKeepFirst_eq_single
  · intro hx
    exact hne (List.map_eq_nil_iff.mp hx)
  · intro k hk
    obtain ⟨m, hm, rfl⟩ := List.mem_map.mp hk
    exact sigD_nil_snps (hall m hm)

theorem defining_string_all_nil {lineage : Str} {members : List Record} {dC rC : ℚ}
    (hne : members ≠ []) (hall : ∀ m ∈ members, m.snps = []) :
    lineage_defining_string lineage members dC rC = none := by
  unfold lineage_defining_string
  rw [if_neg hne]
  have hgood : members.all (fun m => (snp_list_to_snp_string m.snps).isSome) = true := by
    rw [List.all_eq_true]
    intro m hm
    rw [hall m hm]
    rfl
  rw [if_neg (by rw [hgood]; simp)]
  have hchoice : lineage_defining_choice lineage members dC rC = [[]] := by
    simp only [lineage_defining_choice]
    rw [dedup_sigD_all_nil hne hall]
    rfl
  rw [hchoice]
  rfl

/-- Claim C10: for a lineage in which every member's snp list is empty, the
signature intersection collapses to the empty-string pseudo-snp, the position
sort key `int(x[:-2])` fails on that pseudo-snp, and the per-lineage
defining-string computation does not complete normally. -/
theorem claim_C10 (lineage : Str) (members : List Record) (dC rC : ℚ)
    (hne : members ≠ []) (hall : ∀ m ∈ members, m.snps = []) :
    interSig (dedupKeepFirst (members.map sigD)) = [[]] ∧
      parsePos ([] : Str) = none ∧
      lineage_defining_string lineage members dC rC = none := by
  refine ⟨?_, rfl, defining_string_all_nil hne hall⟩
  rw [dedup_sigD_all_nil hne hall]
  rfl

/-- Witness for C10: the one-member lineage whose member equals the reference. -/
theorem claim_C10_witness :
    interSig (dedupKeepFirst (([⟨"M1".toList, [], 0⟩] : List Record).map sigD)) = [[]] ∧
      parsePos ([] : Str) = none ∧
      lineage_defining_string "X".toList [⟨"M1".toList, [], 0⟩] 90 10 = none :=
  claim_C10 "X".toList [⟨"M1".toList, [], 0⟩] 90 10 (by decide) (by decide)

theorem mem_foldl_inter {t : List Str} {init : List Str} {x : Str} :
    x ∈ t.foldl (fun a k2 => a.filter (fun y => y ∈ splitSemi k2)) init ↔
      x ∈ init ∧ ∀ k ∈ t, x ∈ splitSemi k := by
  induction t generalizing init with
  | nil => simp
  | cons k t2 ih =>
    rw [List.foldl_cons, ih]
    simp only [List.mem_filter, decide_eq_true_eq, List.forall_mem_cons]
    tauto

theorem mem_interSig {keys : List Str} (hk : keys ≠ []) {x : Str} :
    x ∈ interSig keys ↔ ∀ k ∈ keys, x ∈ splitSemi k := by
  cases keys with
  | nil => exact absurd rfl hk
  | cons k t =>
    unfold interSig
    rw [mem_foldl_inter]
    unfold sigEventList
    rw [mem_dedupKeepFirst]
    simp only [List.forall_mem_cons]

theorem mem_foldl_finset_inter {t : List Record} {init : Finset Str} {x : Str} :
    x ∈ t.foldl (fun a r => a ∩ r.snps.toFinset) init ↔
      x ∈ init ∧ ∀ r ∈ t, x ∈ r.snps.toFinset := by
  induction t generalizing init with
  | nil => simp
  | cons r t2 ih =>
    rw [List.foldl_cons, ih]
    simp only [Finset.mem_inter, List.forall_mem_cons]
    tauto

theorem mem_specMemberIntersection {members : List Record} (h : members ≠ []) {x : Str} :
    x ∈ specMemberIntersection members ↔ ∀ m ∈ members, x ∈ m.snps := by
  cases members with
  | nil => exact absurd rfl h
  | cons m t =>
    unfold specMemberIntersection
    rw [mem_foldl_finset_inter]
    simp only [List.mem_toFinset, List.forall_mem_cons]

/-- Claim C2: whenever the per-lineage defining-snp row is actually emitted (the
computation completes), the emitted defining-snp set equals the intersection of
the per-member snp-event sets when that intersection is non-empty, and the
cutoff-based defining set exactly when the intersection is empty. -/
theorem claim_C2 (lineage : Str) (members : List Record) (dC rC : ℚ)
    (hwf : ∀ m ∈ members, ∀ s ∈ m.snps, SnpWF s)
    (hem : (lineage_defining_string lineage members dC rC).isSome) :
    (lineage_defining_choice lineage members dC rC).toFinset =
      if specMemberIntersection members = ∅
      then ((classify lineage members dC rC).1).toFinset
      else specMemberIntersection members := by
  have hne : members ≠ [] := by
    intro h0
    unfold lineage_defining_string at hem
    rw [if_pos h0] at hem
    simp at hem
  have hx : ∃ m ∈ members, m.snps ≠ [] := by
    by_contra h0
    push_neg at h0
    rw [defining_string_all_nil hne h0] at hem
    simp at hem
  have hkeyne : dedupKeepFirst (members.map sigD) ≠ [] := by
    intro h0
    have : members.map sigD = [] := by
      cases h1 : members.map sigD with
      | nil => rfl
      | cons a t =>
        exfalso
        have : a ∈ dedupKeepFirst (members.map sigD) := by
          rw [h1]
          exact mem_dedupKeepFirst.mpr (by simp)
        rw [h0] at this
        simp at this
    exact hne (List.map_eq_nil_iff.mp this)
  have hcore : ∀ x : Str, x ∈ interSig (dedupKeepFirst (members.map sigD)) ↔
      ∀ m ∈ members, x ∈ splitSemi (sigD m) := by
    intro x
    rw [mem_interSig hkeyne]
    constructor
    · intro hk m hm
      exact hk (sigD m) (mem_dedupKeepFirst.mpr (List.mem_map_of_mem sigD hm))
    · intro hm k hk
      obtain ⟨m, hmem, rfl⟩ := List.mem_map.mp (mem_dedupKeepFirst.mp hk)
      exact hm m hmem
  have hiff : ∀ x : Str, x ∈ interSig (dedupKeepFirst (members.map sigD)) ↔
      x ∈ specMemberIntersection members := by
    intro x
    rw [hcore x, mem_specMemberIntersection hne]
    constructor
    · intro hall m hm
      obtain ⟨m0, hm0, hm0ne⟩ := hx
      have hx0 : x ∈ m0.snps := (mem_splitSemi_sigD (hwf m0 hm0) hm0ne).mp (hall m0 hm0)
      have hxne : x ≠ [] := (hwf m0 hm0 x hx0).1
      by_cases hms : m.snps = []
      · exfalso
        have h1 := hall m hm
        rw [sigD_nil_snps hms] at h1
        have : x = [] := by simpa [splitSemi] using h1
        exact hxne this
      · exact (mem_splitSemi_sigD (hwf m hm) hms).mp (hall m hm)
    · intro hall m hm
      have hms : m.snps ≠ [] := by
        intro h0
        have := hall m hm
        rw [h0] at this
        simp at this
      exact (mem_splitSemi_sigD (hwf m hm) hms).mpr (hall m hm)
  by_cases hc : interSig (dedupKeepFirst (members.map sigD)) = []
  · have hspec : specMemberIntersection members = ∅ := by
      rw [Finset.eq_empty_iff_forall_not_mem]
      intro x hxs
      have h1 := (hiff x).mpr hxs
      rw [hc] at h1
      simp at h1
    rw [if_pos hspec]
    simp only [lineage_defining_choice]
    rw [if_pos hc]
  · have hspec : specMemberIntersection members ≠ ∅ := by
      obtain ⟨x, hxm⟩ := List.exists_mem_of_ne_nil _ hc
      intro h0
      have h1 := (hiff x).mp hxm
      rw [h0] at h1
      simp at h1
    rw [if_neg hspec]
    simp only [lineage_defining_choice]
    rw [if_neg hc]
    ext x
    rw [List.mem_toFinset, hiff x]

/-- Witness for C2 at a concrete two-member lineage sharing the snp 5AT: the
intersection is non-empty and is the emitted set. -/
theorem claim_C2_witness :
    (lineage_defining_choice "X".toList
        [⟨"M1".toList, ["5AT".toList], 0⟩, ⟨"M2".toList, ["5AT".toList], 1⟩] 90 10).toFinset =
      if specMemberIntersection
          [⟨"M1".toList, ["5AT".toList], 0⟩, ⟨"M2".toList, ["5AT".toList], 1⟩] = ∅
      then ((classify "X".toList
          [⟨"M1".toList, ["5AT".toList], 0⟩, ⟨"M2".toList, ["5AT".toList], 1⟩] 90 10).1).toFinset
      else specMemberIntersection
          [⟨"M1".toList, ["5AT".toList], 0⟩, ⟨"M2".toList, ["5AT".toList], 1⟩] :=
  claim_C2 "X".toList
    [⟨"M1".toList, ["5AT".toList], 0⟩, ⟨"M2".toList, ["5AT".toList], 1⟩] 90 10
    (by decide) (by decide)

/-! ## Generic fold lemmas and selector-state characterizations -/

theorem foldl_pres_mem {α β : Type} {P : β → Prop} {f : β → α → β} :
    ∀ {l : List α}, (∀ b, ∀ a ∈ l, P b → P (f b a)) → ∀ {b : β}, P b → P (l.foldl f b)
  | [], _, _, hb => hb
  | a :: t, h, b, hb => by
    rw [List.foldl_cons]
    exact foldl_pres_mem (fun b' a' ha' hb' => h b' a' (List.mem_cons_of_mem _ ha') hb')
      (h b a (by simp) hb)

theorem foldl_attain {α β : Type} {P : β → Prop} {f : β → α → β}
    (hmono : ∀ b a, P b → P (f b a)) {a : α} (hhit : ∀ b, P (f b a)) :
    ∀ {l : List α}, a ∈ l → ∀ b, P (l.foldl f b)
  | [], h, _ => absurd h (by simp)
  | x :: t, hmem, b => by
    rw [List.foldl_cons]
    rcases List.mem_cons.mp hmem with rfl | ht
    · exact foldl_pres_mem (fun b' a' _ hb' => hmono b' a' hb') (hhit b)
    · exact foldl_attain hmono hhit ht (f b x)

theorem innerFold_spec (snp : Str) (r : Record) :
    ∀ (xs : List Str) (st : RState), r.id ∈ st.2.map Record.id →
      xs.foldl (fun st _ => innerBody snp r st) st =
        (st.1 ++ List.replicate xs.length snp, st.2)
  | [], st, _ => by simp
  | x :: xs, st, h => by
    simp only [List.foldl_cons]
    have hb : innerBody snp r st = (st.1 ++ [snp], st.2) := by
      unfold innerBody
      rw [if_pos h]
    rw [hb, innerFold_spec snp r xs (st.1 ++ [snp], st.2) h]
    simp [List.replicate_succ]

theorem innerTaxaStep_spec (snp : Str) (r : Record) (st : RState) :
    innerTaxaStep snp r st =
      (st.1 ++ List.replicate r.snps.length snp,
        if r.snps = [] then st.2
        else if r.id ∈ st.2.map Record.id then st.2 else st.2 ++ [r]) := by
  unfold innerTaxaStep
  cases hs : r.snps with
  | nil => simp
  | cons x xs =>
    simp only [List.foldl_cons]
    by_cases h : r.id ∈ st.2.map Record.id
    · have hb : innerBody snp r st = (st.1 ++ [snp], st.2) := by
        unfold innerBody
        rw [if_pos h]
      rw [hb, innerFold_spec snp r xs (st.1 ++ [snp], st.2) h]
      simp [List.replicate_succ, h]
    · have hb : innerBody snp r st = (st.1 ++ [snp], st.2 ++ [r]) := by
        unfold innerBody
        rw [if_neg h]
      have h2 : r.id ∈ (st.2 ++ [r]).map Record.id := by simp
      rw [hb, innerFold_spec snp r xs (st.1 ++ [snp], st.2 ++ [r]) h2]
      simp [List.replicate_succ, h]

theorem memberScan_no_match (snp lowN : Str) :
    ∀ (members : List Record) (st : RState), (∀ r ∈ members, ¬ r.id = lowN) →
      memberScan members snp lowN st = st
  | [], _, _ => rfl
  | r :: t, st, h => by
    unfold memberScan
    simp only [List.foldl_cons]
    rw [if_neg (h r (by simp))]
    exact memberScan_no_match snp lowN t st (fun r' hr' => h r' (List.mem_cons_of_mem _ hr'))

theorem memberScan_eq_inner {members : List Record} {snp lowN : Str} {m₀ : Record}
    (hnd : members.Nodup) (hmem : m₀ ∈ members) (hid : m₀.id = lowN)
    (huniq : ∀ r ∈ members, r.id = lowN → r = m₀) (st : RState) :
    memberScan members snp lowN st = innerTaxaStep snp m₀ st := by
  obtain ⟨l₁, l₂, rfl⟩ := List.mem_iff_append.mp hmem
  obtain ⟨hnd₁, hnd₂, hdisj⟩ := List.nodup_append.mp hnd
  have hm₀l₁ : m₀ ∉ l₁ := fun hin => hdisj hin (by simp)
  have h₁ : ∀ r ∈ l₁, ¬ r.id = lowN := by
    intro r hr hid'
    have hrm : r = m₀ := huniq r (by simp [hr]) hid'
    exact hm₀l₁ (hrm ▸ hr)
  have h₂ : ∀ r ∈ l₂, ¬ r.id = lowN := by
    intro r hr hid'
    have hrm : r = m₀ := huniq r (by simp [hr]) hid'
    subst hrm
    exact (List.nodup_cons.mp hnd₂).1 hr
  calc memberScan (l₁ ++ m₀ :: l₂) snp lowN st
      = memberScan (m₀ :: l₂) snp lowN (memberScan l₁ snp lowN st) := by
        unfold memberScan
        rw [List.foldl_append]
    _ = memberScan (m₀ :: l₂) snp lowN st := by
        rw [memberScan_no_match snp lowN l₁ st h₁]
    _ = memberScan l₂ snp lowN (innerTaxaStep snp m₀ st) := by
        unfold memberScan
        simp only [List.foldl_cons]
        rw [if_pos hid]
    _ = innerTaxaStep snp m₀ st := memberScan_no_match snp lowN l₂ _ h₂

/-! ## C5: size floor and duplicate-freeness of the final representative list -/

theorem nodupIds_innerTaxaStep {snp : Str} {r : Record} {st : RState}
    (h : (st.2.map Record.id).Nodup) :
    ((innerTaxaStep snp r st).2.map Record.id).Nodup := by
  rw [innerTaxaStep_spec]
  dsimp only
  split_ifs with h1 h2
  · exact h
  · exact h
  · rw [List.map_append, List.nodup_append]
    refine ⟨h, by simp, ?_⟩
    intro a ha hb
    simp only [List.map_cons, List.map_nil, List.mem_cons, List.not_mem_nil,
      or_false] at hb
    exact h2 (hb ▸ ha)

theorem nodupIds_memberScan {members : List Record} {snp lowN : Str} {st : RState}
    (h : (st.2.map Record.id).Nodup) :
    ((memberScan members snp lowN st).2.map Record.id).Nodup := by
  unfold memberScan
  refine foldl_pres_mem (P := fun b : RState => (b.2.map Record.id).Nodup) ?_ h
  intro b r _ hb
  split_ifs
  · exact nodupIds_innerTaxaStep hb
  · exact hb

theorem nodupIds_snpStep {members : List Record} {flagged : List Str} {lowN : Str}
    {st : RState} (h : (st.2.map Record.id).Nodup) (snp : Str) :
    ((snpStep members flagged lowN st snp).2.map Record.id).Nodup := by
  unfold snpStep
  split_ifs
  · exact nodupIds_memberScan h
  · exact h

theorem nodupIds_groupStep {members : List Record} {flagged : List Str}
    {st : RState} (h : (st.2.map Record.id).Nodup) (g : Str × List (Str × ℚ)) :
    ((groupStep members flagged st g).2.map Record.id).Nodup := by
  unfold groupStep
  refine foldl_pres_mem (P := fun b : RState => (b.2.map Record.id).Nodup) ?_ h
  intro b snp _ hb
  exact nodupIds_snpStep hb snp

theorem nodupIds_get_representative_taxa (members : List Record) (flagged : List Str) :
    ((get_representative_taxa members flagged).map Record.id).Nodup := by
  unfold get_representative_taxa
  refine foldl_pres_mem (P := fun b : RState => (b.2.map Record.id).Nodup) ?_ (by simp)
  intro b g _ hb
  exact nodupIds_groupStep hb g

theorem padStep_len_mono (t : List Record) (r : Record) : t.length ≤ (padStep t r).length := by
  unfold padStep
  split_ifs <;> simp

theorem padFold_len_mono (l : List Record) (t : List Record) :
    t.length ≤ (l.foldl padStep t).length := by
  induction l generalizing t with
  | nil => simp
  | cons r l2 ih => exact le_trans (padStep_len_mono t r) (ih (padStep t r))

theorem padStep_ids_mono {t : List Record} {r : Record} {x : Str}
    (h : x ∈ t.map Record.id) : x ∈ (padStep t r).map Record.id := by
  unfold padStep
  split_ifs <;> simp [h] at * <;> tauto

theorem padFold_ids_mono (l : List Record) {t : List Record} {x : Str}
    (h : x ∈ t.map Record.id) : x ∈ (l.foldl padStep t).map Record.id := by
  refine foldl_pres_mem (P := fun b : List Record => x ∈ b.map Record.id) ?_ h
  intro b r _ hb
  exact padStep_ids_mono hb

theorem padFold_nodup {l : List Record} {t : List Record}
    (h : (t.map Record.id).Nodup) : ((l.foldl padStep t).map Record.id).Nodup := by
  refine foldl_pres_mem (P := fun b : List Record => (b.map Record.id).Nodup) ?_ h
  intro b r _ hb
  unfold padStep
  split_ifs with hc
  · rw [List.map_append, List.nodup_append]
    refine ⟨hb, by simp, ?_⟩
    intro a ha hmem
    simp only [List.map_cons, List.map_nil, List.mem_cons, List.not_mem_nil,
      or_false] at hmem
    exact hc.2 (hmem ▸ ha)
  · exact hb

theorem padFold_covers (l : List Record) (t : List Record) :
    ∀ m ∈ l, 3 ≤ (l.foldl padStep t).length ∨ m.id ∈ (l.foldl padStep t).map Record.id := by
  induction l generalizing t with
  | nil => simp
  | cons r l2 ih =>
    intro m hm
    rw [List.foldl_cons]
    rcases List.mem_cons.mp hm with rfl | hm2
    · by_cases hc : t.length < 3 ∧ ¬ m.id ∈ t.map Record.id
      · right
        apply padFold_ids_mono
        unfold padStep
        rw [if_pos hc]
        simp
      · rw [Classical.not_and_iff_or_not_not] at hc
        rcases hc with hlen | hid
        · left
          have h3 : 3 ≤ t.length := by omega
          exact le_trans h3 (le_trans (padStep_len_mono t m) (padFold_len_mono l2 _))
        · right
          rw [Classical.not_not] at hid
          exact padFold_ids_mono l2 (padStep_ids_mono hid)
    · exact ih (padStep t r) m hm2

/-- Claim C5: the final representative list — the greedy selection padded to
three — contains no duplicated identifier and has at least min(3, lineage size)
entries, provided the lineage members carry distinct identifiers. -/
theorem claim_C5 (members : List Record) (flagged : List Str)
    (hnodup : (members.map Record.id).Nodup) :
    (((pad_taxa_to_5 (get_representative_taxa members flagged) members).map Record.id).Nodup) ∧
      min 3 members.length ≤
        (pad_taxa_to_5 (get_representative_taxa members flagged) members).length := by
  set t0 := get_representative_taxa members flagged with ht0
  have hnd0 : (t0.map Record.id).Nodup := nodupIds_get_representative_taxa members flagged
  unfold pad_taxa_to_5
  split_ifs with hlt
  · refine ⟨padFold_nodup hnd0, ?_⟩
    by_cases h3 : 3 ≤ (members.foldl padStep t0).length
    · exact le_trans (min_le_left _ _) h3
    · have hall : ∀ m ∈ members, m.id ∈ (members.foldl padStep t0).map Record.id := by
        intro m hm
        rcases padFold_covers members t0 m hm with h | h
        · exact absurd h h3
        · exact h
      have hsub : members.map Record.id ⊆ (members.foldl padStep t0).map Record.id := by
        intro x hx
        obtain ⟨m, hm, rfl⟩ := List.mem_map.mp hx
        exact hall m hm
      have hcard : members.length ≤ (members.foldl padStep t0).length := by
        have h1 : (members.map Record.id).toFinset.card = members.length := by
          rw [List.toFinset_card_of_nodup hnodup, List.length_map]
        have h2 : (members.map Record.id).toFinset ⊆
            ((members.foldl padStep t0).map Record.id).toFinset := by
          intro x hx
          rw [List.mem_toFinset] at *
          exact hsub hx
        calc members.length = (members.map Record.id).toFinset.card := h1.symm
          _ ≤ ((members.foldl padStep t0).map Record.id).toFinset.card :=
              Finset.card_le_card h2
          _ ≤ ((members.foldl padStep t0).map Record.id).length := List.toFinset_card_le _
          _ = (members.foldl padStep t0).length := List.length_map _ _
      exact le_trans (min_le_right _ _) hcard
  · refine ⟨hnd0, ?_⟩
    push_neg at hlt
    exact le_trans (min_le_left _ _) hlt

/-- Witness for C5: a three-member lineage with one flagged snp yields, after
padding, a duplicate-free list of three representatives. -/
theorem claim_C5_witness :
    (((pad_taxa_to_5 (get_representative_taxa
        [⟨"M1".toList, ["4TA".toList], 0⟩, ⟨"M2".toList, ["4TA".toList], 1⟩,
          ⟨"M3".toList, ["2CT".toList], 2⟩] ["4TA".toList])
        [⟨"M1".toList, ["4TA".toList], 0⟩, ⟨"M2".toList, ["4TA".toList], 1⟩,
          ⟨"M3".toList, ["2CT".toList], 2⟩]).map Record.id).Nodup) ∧
      min 3 ([⟨"M1".toList, ["4TA".toList], 0⟩, ⟨"M2".toList, ["4TA".toList], 1⟩,
          ⟨"M3".toList, ["2CT".toList], 2⟩] : List Record).length ≤
        (pad_taxa_to_5 (get_representative_taxa
          [⟨"M1".toList, ["4TA".toList], 0⟩, ⟨"M2".toList, ["4TA".toList], 1⟩,
            ⟨"M3".toList, ["2CT".toList], 2⟩] ["4TA".toList])
          [⟨"M1".toList, ["4TA".toList], 0⟩, ⟨"M2".toList, ["4TA".toList], 1⟩,
            ⟨"M3".toList, ["2CT".toList], 2⟩]).length :=
  claim_C5
    [⟨"M1".toList, ["4TA".toList], 0⟩, ⟨"M2".toList, ["4TA".toList], 1⟩,
      ⟨"M3".toList, ["2CT".toList], 2⟩] ["4TA".toList] (by decide)

/-! ## C6: the selected representative of each signature group -/

theorem find_eq_head_filter {α : Type} (p : α → Bool) :
    ∀ l : List α, l.find? p = (l.filter p).head?
  | [] => rfl
  | a :: t => by
    by_cases h : p a
    · rw [List.find?_cons_of_pos _ h, List.filter_cons_of_pos h]
      rfl
    · rw [List.find?_cons_of_neg _ h, List.filter_cons_of_neg h]
      exact find_eq_head_filter p t

theorem mem_buildLineageSnps {members : List Record} {g : Str × List (Str × ℚ)}
    (hg : g ∈ buildLineageSnps members) :
    (∃ m ∈ members, sigD m = g.1) ∧
      g.2 = (members.filter (fun r => sigD r = g.1)).map (fun r => (r.id, r.pcentN)) := by
  unfold buildLineageSnps at hg
  obtain ⟨k, hk, rfl⟩ := List.mem_map.mp hg
  exact ⟨List.mem_map.mp (mem_dedupKeepFirst.mp hk), rfl⟩

theorem sig_mem_build {members : List Record} {m : Record} (hm : m ∈ members) :
    (sigD m, (members.filter (fun r => sigD r = sigD m)).map (fun r => (r.id, r.pcentN))) ∈
      buildLineageSnps members := by
  unfold buildLineageSnps
  exact List.mem_map.mpr ⟨sigD m, mem_dedupKeepFirst.mpr (List.mem_map_of_mem sigD hm), rfl⟩

theorem lowestNOf_mem {grp : List (Str × ℚ)} (hne : grp ≠ []) :
    ∃ p ∈ grp, p.1 = lowestNOf grp := by
  unfold lowestNOf
  cases hs : sortByKey (fun a b => pyInt a.2 ≤ pyInt b.2) grp with
  | nil =>
    exfalso
    have hlen := length_sortByKey (fun a b => pyInt a.2 ≤ pyInt b.2) grp
    rw [hs] at hlen
    exact hne (List.length_eq_zero.mp hlen.symm)
  | cons p t =>
    refine ⟨p, ?_, rfl⟩
    exact mem_sortByKey.mp (by rw [hs]; simp)

theorem lowestNOf_of_sorted {grp : List (Str × ℚ)}
    (hsorted : grp.Pairwise (fun a b => pyInt a.2 ≤ pyInt b.2)) {p : Str × ℚ}
    {t : List (Str × ℚ)} (hgrp : grp = p :: t) : lowestNOf grp = p.1 := by
  unfold lowestNOf
  rw [sortByKey_of_sorted (hsorted.imp (fun hab => decide_eq_true hab)), hgrp]
  rfl

/-- Property of a record selected for a signature group when the members are
pre-sorted by ascending N-content: it belongs to the lineage, its N-content is
minimal among the members sharing its signature, and it is the first such member
in the pre-existing order. -/
def SelProp (members : List Record) (r : Record) : Prop :=
  r ∈ members ∧ (∀ m ∈ members, sigD m = sigD r → r.pcentN ≤ m.pcentN) ∧
    members.find? (fun m => sigD m = sigD r) = some r

theorem chosen_selProp {members : List Record}
    (hsort : members.Pairwise (fun a b => a.pcentN ≤ b.pcentN))
    {g : Str × List (Str × ℚ)} (hg : g ∈ buildLineageSnps members) :
    ∃ m₀ ∈ members, m₀.id = lowestNOf g.2 ∧ SelProp members m₀ := by
  obtain ⟨⟨m1, hm1, hm1sig⟩, hgrp⟩ := mem_buildLineageSnps hg
  cases hfil : members.filter (fun r => sigD r = g.1) with
  | nil =>
    exfalso
    have : m1 ∈ members.filter (fun r => sigD r = g.1) :=
      List.mem_filter.mpr ⟨hm1, by simp [hm1sig]⟩
    rw [hfil] at this
    simp at this
  | cons m₀ rest =>
    have hm₀fil : m₀ ∈ members.filter (fun r => sigD r = g.1) := by
      rw [hfil]
      simp
    have hm₀mem : m₀ ∈ members := (List.mem_filter.mp hm₀fil).1
    have hm₀sig : sigD m₀ = g.1 := by
      have := (List.mem_filter.mp hm₀fil).2
      simpa using this
    have hfil_pairwise : (members.filter (fun r => sigD r = g.1)).Pairwise
        (fun a b => a.pcentN ≤ b.pcentN) := hsort.filter _
    have hgrp_pairwise : g.2.Pairwise (fun a b => pyInt a.2 ≤ pyInt b.2) := by
      rw [hgrp]
      rw [List.pairwise_map]
      exact hfil_pairwise.imp (fun hab => pyInt_mono hab)
    have hlow : lowestNOf g.2 = m₀.id := by
      refine lowestNOf_of_sorted hgrp_pairwise (p := (m₀.id, m₀.pcentN))
        (t := rest.map (fun r => (r.id, r.pcentN))) ?_
      rw [hgrp, hfil]
      rfl
    refine ⟨m₀, hm₀mem, hlow.symm, hm₀mem, ?_, ?_⟩
    · intro m hm hms
      have hmfil : m ∈ members.filter (fun r => sigD r = g.1) :=
        List.mem_filter.mpr ⟨hm, by simp [hms, hm₀sig]⟩
      rw [hfil] at hmfil
      rcases List.mem_cons.mp hmfil with rfl | hrest
      · exact le_refl _
      · exact (List.pairwise_cons.mp (hfil ▸ hfil_pairwise)).1 m hrest
    · rw [hm₀sig]
      rw [find_eq_head_filter, hfil]
      rfl

theorem selInv_snpStep {members : List Record} {flagged : List Str}
    (hsort : members.Pairwise (fun a b => a.pcentN ≤ b.pcentN))
    (hnodup : (members.map Record.id).Nodup)
    {g : Str × List (Str × ℚ)} (hg : g ∈ buildLineageSnps members)
    {st : RState} (hinv : ∀ r ∈ st.2, SelProp members r) (snp : Str) :
    ∀ r ∈ (snpStep members flagged (lowestNOf g.2) st snp).2, SelProp members r := by
  unfold snpStep
  split_ifs with hc
  · obtain ⟨m₀, hm₀mem, hm₀id, hm₀sel⟩ := chosen_selProp hsort hg
    have huniq : ∀ r ∈ members, r.id = lowestNOf g.2 → r = m₀ := by
      intro r hr hrid
      exact List.inj_on_of_nodup_map hnodup hr hm₀mem (by rw [hrid, hm₀id])
    rw [memberScan_eq_inner (List.Nodup.of_map _ hnodup) hm₀mem hm₀id huniq]
    rw [innerTaxaStep_spec]
    intro r hr
    dsimp only at hr
    split_ifs at hr with h1 h2
    · exact hinv r hr
    · exact hinv r hr
    · rcases List.mem_append.mp hr with h | h
      · exact hinv r h
      · have hrm : r = m₀ := by simpa using h
        subst hrm
        exact hm₀sel
  · exact hinv

theorem selInv_groupStep {members : List Record} {flagged : List Str}
    (hsort : members.Pairwise (fun a b => a.pcentN ≤ b.pcentN))
    (hnodup : (members.map Record.id).Nodup)
    {g : Str × List (Str × ℚ)} (hg : g ∈ buildLineageSnps members)
    {st : RState} (hinv : ∀ r ∈ st.2, SelProp members r) :
    ∀ r ∈ (groupStep members flagged st g).2, SelProp members r := by
  unfold groupStep
  refine foldl_pres_mem (P := fun b : RState => ∀ r ∈ b.2, SelProp members r) ?_ hinv
  intro b snp _ hb
  exact selInv_snpStep hsort hnodup hg hb snp

/-- Claim C6: when the lineage members are pre-sorted by ascending N-content (as
`get_lineage_dict` guarantees) and carry distinct identifiers, every sequence the
selector puts in the output is the member of its own snp-signature group with the
smallest N-content, ties broken by the group's pre-existing order: it is the
first member of the lineage carrying its signature. -/
theorem claim_C6 (members : List Record) (flagged : List Str)
    (hsort : members.Pairwise (fun a b => a.pcentN ≤ b.pcentN))
    (hnodup : (members.map Record.id).Nodup) :
    ∀ r ∈ get_representative_taxa members flagged,
      r ∈ members ∧ (∀ m ∈ members, sigD m = sigD r → r.pcentN ≤ m.pcentN) ∧
        members.find? (fun m => sigD m = sigD r) = some r := by
  intro r hr
  have hP : SelProp members r := by
    refine foldl_pres_mem (P := fun b : RState => ∀ x ∈ b.2, SelProp members x)
      ?_ (by simp) r hr
    intro b g hgmem hb
    exact selInv_groupStep hsort hnodup hgmem hb
  exact hP

/-- Witness for C6: in a two-member lineage sorted by N-content and sharing one
signature, the selected representative is the first, lowest-N member. -/
theorem claim_C6_witness :
    (⟨"B".toList, ["4TA".toList], 1⟩ : Record) ∈
        ([⟨"B".toList, ["4TA".toList], 1⟩, ⟨"A".toList, ["4TA".toList], 2⟩] : List Record) ∧
      (∀ m ∈ ([⟨"B".toList, ["4TA".toList], 1⟩,
          ⟨"A".toList, ["4TA".toList], 2⟩] : List Record),
        sigD m = sigD ⟨"B".toList, ["4TA".toList], 1⟩ →
          (⟨"B".toList, ["4TA".toList], 1⟩ : Record).pcentN ≤ m.pcentN) ∧
      ([⟨"B".toList, ["4TA".toList], 1⟩,
          ⟨"A".toList, ["4TA".toList], 2⟩] : List Record).find?
        (fun m => sigD m = sigD ⟨"B".toList, ["4TA".toList], 1⟩) =
        some ⟨"B".toList, ["4TA".toList], 1⟩ :=
  claim_C6 [⟨"B".toList, ["4TA".toList], 1⟩, ⟨"A".toList, ["4TA".toList], 2⟩]
    ["4TA".toList] (by decide) (by decide) ⟨"B".toList, ["4TA".toList], 1⟩ (by decide)

/-! ## C1: coverage of every carried representable snp -/

theorem rep_mono_innerTaxaStep (snp : Str) (r : Record) (st : RState) :
    st.1 ⊆ (innerTaxaStep snp r st).1 := by
  rw [innerTaxaStep_spec]
  dsimp only
  exact (List.subset_append_left _ _)

theorem rep_mono_memberScan (members : List Record) (snp lowN : Str) (st : RState) :
    st.1 ⊆ (memberScan members snp lowN st).1 := by
  unfold memberScan
  refine foldl_pres_mem (P := fun b : RState => st.1 ⊆ b.1) ?_ (fun x h => h)
  intro b r _ hb
  split_ifs
  · exact hb.trans (rep_mono_innerTaxaStep snp r b)
  · exact hb

theorem rep_mono_snpStep (members : List Record) (flagged : List Str)
    (lowN : Str) (st : RState) (snp : Str) :
    st.1 ⊆ (snpStep members flagged lowN st snp).1 := by
  unfold snpStep
  split_ifs
  · refine subset_trans ?_ (rep_mono_memberScan members snp lowN (st.1 ++ [snp], st.2))
    exact List.subset_append_left _ _
  · exact fun x h => h

theorem rep_mono_groupStep (members : List Record) (flagged : List Str)
    (st : RState) (g : Str × List (Str × ℚ)) :
    st.1 ⊆ (groupStep members flagged st g).1 := by
  unfold groupStep
  refine foldl_pres_mem (P := fun b : RState => st.1 ⊆ b.1) ?_ (fun x h => h)
  intro b snp _ hb
  exact hb.trans (rep_mono_snpStep members flagged (lowestNOf g.2) b snp)

theorem snpStep_mem_rep {members : List Record} {flagged : List Str}
    {lowN : Str} {st : RState} {s : Str} (hf : s ∈ flagged) :
    s ∈ (snpStep members flagged lowN st s).1 := by
  unfold snpStep
  split_ifs with hc
  · exact rep_mono_memberScan members s lowN (st.1 ++ [s], st.2) (by simp)
  · push_neg at hc
    exact hc hf

theorem groupStep_covers {members : List Record} {flagged : List Str}
    {g : Str × List (Str × ℚ)} {s : Str}
    (hf : s ∈ flagged) (hs : s ∈ splitSemi g.1) (st : RState) :
    s ∈ (groupStep members flagged st g).1 := by
  unfold groupStep
  refine foldl_attain (P := fun b : RState => s ∈ b.1) ?_ ?_ hs st
  · intro b a hb
    exact rep_mono_snpStep members flagged (lowestNOf g.2) b a hb
  · intro b
    exact snpStep_mem_rep hf

theorem rep_attained {members : List Record} {flagged : List Str} {s : Str}
    (hf : s ∈ flagged) {m : Record} (hm : m ∈ members)
    (hs : s ∈ splitSemi (sigD m)) (st : RState) :
    s ∈ ((buildLineageSnps members).foldl (groupStep members flagged) st).1 := by
  refine foldl_attain (P := fun b : RState => s ∈ b.1) ?_ ?_ (sig_mem_build hm) st
  · intro b g hb
    exact rep_mono_groupStep members flagged b g hb
  · intro b
    exact groupStep_covers hf hs b

theorem chosen_mem {members : List Record} {g : Str × List (Str × ℚ)}
    (hg : g ∈ buildLineageSnps members) :
    ∃ m₀ ∈ members, m₀.id = lowestNOf g.2 ∧ sigD m₀ = g.1 := by
  obtain ⟨⟨m1, hm1, hm1sig⟩, hgrp⟩ := mem_buildLineageSnps hg
  have hne : g.2 ≠ [] := by
    rw [hgrp]
    intro h0
    rw [List.map_eq_nil_iff] at h0
    have hm1f : m1 ∈ members.filter (fun r => sigD r = g.1) :=
      List.mem_filter.mpr ⟨hm1, by simp [hm1sig]⟩
    rw [h0] at hm1f
    simp at hm1f
  obtain ⟨p, hp, hp1⟩ := lowestNOf_mem hne
  rw [hgrp] at hp
  obtain ⟨m₀, hm₀fil, hm₀p⟩ := List.mem_map.mp hp
  have hm₀mem : m₀ ∈ members := (List.mem_filter.mp hm₀fil).1
  have hm₀sig : sigD m₀ = g.1 := by simpa using (List.mem_filter.mp hm₀fil).2
  refine ⟨m₀, hm₀mem, ?_, hm₀sig⟩
  rw [← hp1, ← hm₀p]

/-- Invariant of the selector state: every flagged non-empty snp already marked
represented is carried by some taxon in the output list, and the output list
holds only lineage members. -/
def CovInv (members : List Record) (flagged : List Str) (st : RState) : Prop :=
  (∀ s ∈ st.1, s ∈ flagged → ¬ s = [] → ∃ r ∈ st.2, s ∈ r.snps) ∧
    ∀ r ∈ st.2, r ∈ members

theorem covInv_snpStep {members : List Record} {flagged : List Str}
    (hwf : ∀ m ∈ members, ∀ s ∈ m.snps, SnpWF s)
    (hnodup : (members.map Record.id).Nodup)
    {g : Str × List (Str × ℚ)} (hg : g ∈ buildLineageSnps members)
    {st : RState} (hinv : CovInv members flagged st) {snp : Str}
    (hsnp : snp ∈ splitSemi g.1) :
    CovInv members flagged (snpStep members flagged (lowestNOf g.2) st snp) := by
  unfold snpStep
  split_ifs with hc
  · obtain ⟨m₀, hm₀mem, hm₀id, hm₀sig⟩ := chosen_mem hg
    have huniq : ∀ r ∈ members, r.id = lowestNOf g.2 → r = m₀ := by
      intro r hr hrid
      exact List.inj_on_of_nodup_map hnodup hr hm₀mem (by rw [hrid, hm₀id])
    rw [memberScan_eq_inner (List.Nodup.of_map _ hnodup) hm₀mem hm₀id huniq]
    rw [innerTaxaStep_spec]
    constructor
    · intro s hs hsf hsne
      dsimp only at hs ⊢
      by_cases hsold : s ∈ st.1
      · obtain ⟨r, hrmem, hrs⟩ := hinv.1 s hsold hsf hsne
        refine ⟨r, ?_, hrs⟩
        split_ifs <;> simp [hrmem]
      · have hssnp : s = snp := by
          rcases List.mem_append.mp hs with h | h
          · rcases List.mem_append.mp h with h' | h'
            · exact absurd h' hsold
            · simpa using h'
          · exact List.eq_of_mem_replicate h
        subst hssnp
        by_cases hk : g.1 = []
        · exfalso
          rw [hk] at hsnp
          have hnil : s = [] := by simpa [splitSemi] using hsnp
          exact hsne hnil
        · have hm₀ne : m₀.snps ≠ [] := by
            intro h0
            apply hk
            rw [← hm₀sig]
            exact sigD_nil_snps h0
          have hsnp_m₀ : s ∈ m₀.snps := by
            have h1 := hsnp
            rw [← hm₀sig] at h1
            exact (mem_splitSemi_sigD (hwf m₀ hm₀mem) hm₀ne).mp h1
          rw [if_neg hm₀ne]
          by_cases hid : m₀.id ∈ st.2.map Record.id
          · rw [if_pos hid]
            obtain ⟨r, hrmem, hrid⟩ := List.mem_map.mp hid
            have hrm : r = m₀ :=
              List.inj_on_of_nodup_map hnodup (hinv.2 r hrmem) hm₀mem hrid
            subst hrm
            exact ⟨r, hrmem, hsnp_m₀⟩
          · rw [if_neg hid]
            exact ⟨m₀, by simp, hsnp_m₀⟩
    · intro r hr
      dsimp only at hr
      split_ifs at hr with h1 h2
      · exact hinv.2 r hr
      · exact hinv.2 r hr
      · rcases List.mem_append.mp hr with h | h
        · exact hinv.2 r h
        · have hrm : r = m₀ := by simpa using h
          subst hrm
          exact hm₀mem
  · exact hinv

theorem covInv_groupStep {members : List Record} {flagged : List Str}
    (hwf : ∀ m ∈ members, ∀ s ∈ m.snps, SnpWF s)
    (hnodup : (members.map Record.id).Nodup)
    {g : Str × List (Str × ℚ)} (hg : g ∈ buildLineageSnps members)
    {st : RState} (hinv : CovInv members flagged st) :
    CovInv members flagged (groupStep members flagged st g) := by
  unfold groupStep
  refine foldl_pres_mem (P := CovInv members flagged) ?_ hinv
  intro b snp hsnp hb
  exact covInv_snpStep hwf hnodup hg hb hsnp

/-- Claim C1: for every lineage whose members carry distinct identifiers and
well-formed snp strings, every flagged (representable) snp that appears in at
least one member's snp list is carried by at least one sequence of the selector's
output, before padding. -/
theorem claim_C1 (members : List Record) (flagged : List Str)
    (hnodup : (members.map Record.id).Nodup)
    (hwf : ∀ m ∈ members, ∀ s ∈ m.snps, SnpWF s) :
    ∀ s ∈ flagged, (∃ m ∈ members, s ∈ m.snps) →
      ∃ r ∈ get_representative_taxa members flagged, s ∈ r.snps := by
  intro s hsf hcarry
  obtain ⟨m, hm, hsm⟩ := hcarry
  have hinv : CovInv members flagged
      ((buildLineageSnps members).foldl (groupStep members flagged) ([], [])) := by
    refine foldl_pres_mem (P := CovInv members flagged) ?_ ?_
    · intro b g hgmem hb
      exact covInv_groupStep hwf hnodup hgmem hb
    · exact ⟨by simp, by simp⟩
  have hmne : m.snps ≠ [] := by
    intro h0
    rw [h0] at hsm
    simp at hsm
  have hs_split : s ∈ splitSemi (sigD m) :=
    (mem_splitSemi_sigD (hwf m hm) hmne).mpr hsm
  have hsrep : s ∈ ((buildLineageSnps members).foldl
      (groupStep members flagged) ([], [])).1 :=
    rep_attained hsf hm hs_split ([], [])
  have hsne : ¬ s = [] := (hwf m hm s hsm).1
  obtain ⟨r, hr, hrs⟩ := hinv.1 s hsrep hsf hsne
  exact ⟨r, hr, hrs⟩

/-- Witness for C1: in a concrete two-signature lineage the flagged snp 4TA,
carried by M1 and M2, is carried by a selected representative. -/
theorem claim_C1_witness :
    ∃ r ∈ get_representative_taxa
      [⟨"M1".toList, ["4TA".toList], 0⟩, ⟨"M2".toList, ["4TA".toList], 1⟩,
        ⟨"M3".toList, ["2CT".toList], 2⟩] ["4TA".toList],
      "4TA".toList ∈ r.snps :=
  claim_C1
    [⟨"M1".toList, ["4TA".toList], 0⟩, ⟨"M2".toList, ["4TA".toList], 1⟩,
      ⟨"M3".toList, ["2CT".toList], 2⟩] ["4TA".toList]
    (by decide) (by decide) "4TA".toList (by decide)
    ⟨⟨"M1".toList, ["4TA".toList], 0⟩, by decide, by decide⟩
